import Mathlib

/-!
# Verification of the statistical-engine spec against the criterion.rs sources

Shallow embedding of the three source files

* `src/format.rs` (`short`, `time`, `iter_count`),
* `src/plot/summary.rs` (`line_comparison`, `violin`),
* `stats/src/univariate/kde/kernel.rs` (`Gaussian::evaluate`),

together with proofs of the spec's claims about them.

Modelling conventions:

* `f64` values are idealized as exact rationals (`ℚ`) where the code performs
  only field operations and comparisons, and as reals (`ℝ`) where it uses
  `exp`/`sqrt`.  Floating-point constants that appear in the code (`-0.5`,
  `1e3`, the `f32` value of `π`, ...) are written as the exact rationals those
  IEEE values denote.
* Rust functions that can neither read nor write any state besides their
  arguments are embedded as pure functions; where a claim is about the absence
  of mutation, the function is additionally given in an explicit
  state-threading form so that the frame property is a theorem rather than a
  typing convention.
* `Sample::mean`, `Sample::max` and `kde::sweep` live in parts of the `stats`
  crate that are not part of the excerpt; `mean` and `max` are modelled from
  the spec (§4.1: descriptive and order statistics), and the plotting code is
  kept parametric in the `sweep` function, which the claims never constrain.
-/

namespace Criterion

/-! ## src/format.rs -/

/-- Round a rational to the nearest integer, ties to even.  This is the
rounding Rust's `{:.0}` float formatting performs on the exact value of its
argument.  For the quotients `iterations/1000`, `iterations/10^6`,
`iterations/10^9` taken below, the intermediate `f64` division is either exact
at a tie (the tie values are dyadic rationals) or more than the division's
rounding error away from a tie, so rounding the exact rational is faithful to
rounding the `f64` quotient. -/
def roundHalfEven (q : ℚ) : ℤ :=
  let f := ⌊q⌋
  let r := q - (f : ℚ)
  if r < 1/2 then f
  else if 1/2 < r then f + 1
  else if f % 2 = 0 then f else f + 1

/-- Rust `format!("{:.0}", ·)` on a (nonnegative) quotient: the rounded value
in decimal. -/
def fmt0 (q : ℚ) : String := toString (roundHalfEven q)

/-- Rust `format!("{:.1}", ·)` on a quotient, modelled as rounding the exact
rational to one decimal place (ties to even).  At an exact `.x5` tie the `f64`
double rounding may differ; no claim depends on the branches that use this. -/
def fmt1 (q : ℚ) : String :=
  let t := roundHalfEven (q * 10)
  toString (t / 10) ++ "." ++ toString (t % 10)

/-- `time` from src/format.rs: unit selection and scaling.  The decimal
formatting done by `short` is not modelled; the pair returned here is the
value handed to `short` and the unit suffix of the formatted string. -/
def time (ns : ℚ) : ℚ × String :=
  if ns < 1 then (ns * 1000, "ps")
  else if ns < 10 ^ 3 then (ns, "ns")
  else if ns < 10 ^ 6 then (ns / 10 ^ 3, "us")
  else if ns < 10 ^ 9 then (ns / 10 ^ 6, "ms")
  else (ns / 10 ^ 9, "s")

/-- `iter_count` from src/format.rs. -/
def iter_count (iterations : ℕ) : String :=
  if iterations < 10000 then toString iterations ++ " iterations"
  else if iterations < 1000000 then
    fmt0 ((iterations : ℚ) / 1000) ++ "k iterations"
  else if iterations < 10000000 then
    fmt1 ((iterations : ℚ) / (1000 * 1000)) ++ "M iterations"
  else if iterations < 1000000000 then
    fmt0 ((iterations : ℚ) / (1000 * 1000)) ++ "M iterations"
  else if iterations < 10000000000 then
    fmt1 ((iterations : ℚ) / (1000 * 1000 * 1000)) ++ "B iterations"
  else
    fmt0 ((iterations : ℚ) / (1000 * 1000 * 1000)) ++ "B iterations"

/-! ## src/plot/summary.rs

The plotting functions are embedded up to the point where the computed data
is handed to the gnuplot figure: colors, axes, file paths and the spawned
child process are outside the data model. -/

/-- Modelled from the spec: `Sample::mean` (stats crate, not in the excerpt)
is the arithmetic average of the measurements (§4.1). -/
def Sample.mean (s : List ℚ) : ℚ := s.sum / s.length

/-- Modelled from the spec: `Sample::max` (stats crate, not in the excerpt)
is the maximum of the measurements, an order statistic (§4.1); the value on an
empty sample is irrelevant to every use below. -/
def Sample.max : List ℚ → ℚ
  | [] => 0
  | x :: xs => xs.foldl Max.max x

/-- The tuple construction inside one `function_id` group of
`line_comparison`: `x = id.as_number().unwrap()`, `y = Sample::new(sample).mean()`.
A group element is modelled as the pair (numeric value of the benchmark id,
sample buffer). -/
def lineTuples (group : List (ℚ × List ℚ)) : List (ℚ × ℚ) :=
  group.map fun p => (p.1, Sample.mean p.2)

/-- `tuples.sort_by(|&(ax, _), &(bx, _)| ax.partial_cmp(&bx).unwrap_or(Ordering::Less))`:
a stable sort by the comparator.  In the rational model every `x` admits a
total comparison (there is no NaN), so the comparator is the total order on
first components. -/
def lineSortedTuples (group : List (ℚ × List ℚ)) : List (ℚ × ℚ) :=
  (lineTuples group).mergeSort fun p q => decide (p.1 ≤ q.1)

/-- `line_comparison` in explicit state-threading form: the caller's buffers
are the state, the tuple loop reads them one by one, and the function returns
the sorted plot tuples together with the final state of the buffers. -/
def line_comparison (mem : List (ℚ × List ℚ)) :
    List (ℚ × ℚ) × List (ℚ × List ℚ) :=
  let st := mem.foldl (fun st p => (st.1 ++ [(p.1, Sample.mean p.2)], st.2)) ([], mem)
  (st.1.mergeSort fun p q => decide (p.1 ≤ q.1), st.2)

/-- The per-sample body of `violin`'s `kdes` map: run `kde::sweep` on the
sample, then divide the freshly produced `y` vector elementwise by its own
maximum (`for y in y.iter_mut() { *y /= y_max }`).  The division is applied to
the vector returned by `sweep`, never to the input sample. -/
def violinCurve (sweep : List ℚ → List ℚ × List ℚ) (sample : List ℚ) :
    List ℚ × List ℚ :=
  let xy := sweep sample
  let y_max := Sample.max xy.2
  (xy.1, xy.2.map fun y => y / y_max)

/-- The `kdes` vector of `violin`: the input curves are traversed in reverse
(`all_curves.iter().rev()`) and each sample is turned into a normalized
density curve. -/
def violinKdes (sweep : List ℚ → List ℚ × List ℚ) (all_curves : List (List ℚ)) :
    List (List ℚ × List ℚ) :=
  all_curves.reverse.map (violinCurve sweep)

/-- `violin` in explicit state-threading form, up to the computation of
`kdes`: the caller's buffers are the state. -/
def violinRun (sweep : List ℚ → List ℚ × List ℚ) (mem : List (List ℚ)) :
    List (List ℚ) × List (List ℚ × List ℚ) :=
  mem.reverse.foldl (fun st sample => (st.1, st.2 ++ [violinCurve sweep sample]))
    (mem, [])

/-- The min/max scan of `violin` over the filtered x iterator:
`if e < min { min = e } else if e > max { max = e }`. -/
def minMaxLoop : ℚ → ℚ → List ℚ → ℚ × ℚ
  | mn, mx, [] => (mn, mx)
  | mn, mx, e :: rest =>
    if e < mn then minMaxLoop e mx rest
    else if mx < e then minMaxLoop mn e rest
    else minMaxLoop mn mx rest

/-- `violin`'s x-range computation: chain all KDE x-coordinates, keep the
strictly positive ones, and take the first as initial min/max
(`xs.next().unwrap()`).  The `unwrap` of `None` — a panic — is modelled as
`none`. -/
def violinMinMax (kdes : List (List ℚ × List ℚ)) : Option (ℚ × ℚ) :=
  match (kdes.flatMap fun c => c.1).filter (fun x => decide (0 < x)) with
  | [] => none
  | first :: rest => some (minMaxLoop first first rest)

/-! ## stats/src/univariate/kde/kernel.rs

`Gaussian::evaluate` is generic over a float type `A`.  The arithmetic is
idealized over `ℝ`; the floating-point constants keep their exact IEEE values:
`A::cast(-0.5)` is exactly -1/2 at every precision, while `2. * PI` is computed
with `std::f32::consts::PI`, i.e. in `f32`, and then cast — exactly — to `A`.
So the constant under the square root is the same `f32`-precision rational for
every instantiation, including `A = f64`. -/

/-- The IEEE binary32 value of π (`std::f32::consts::PI`), as the exact
rational it denotes. -/
def pi32 : ℚ := 13176795 / 2 ^ 22

/-- The IEEE binary64 value of π, as the exact rational it denotes. -/
def pi64 : ℚ := 884279719003555 / 2 ^ 48

/-- `2. * PI` evaluated in `f32` (exact, a multiplication by 2) and cast to the
evaluation precision: the constant `Gaussian::evaluate` actually uses. -/
def twoPi32 : ℚ := 2 * pi32

/-- 2π at `f64` precision: the constant the claim says an `f64` evaluation
uses. -/
def twoPi64 : ℚ := 2 * pi64

/-- `Gaussian::evaluate` from kernel.rs:
`(x.powi(2) * A::cast(-0.5)).exp() * (A::cast(2. * PI)).sqrt().recip()`. -/
noncomputable def Gaussian.evaluate (x : ℝ) : ℝ :=
  Real.exp (x ^ 2 * (-(1 / 2) : ℝ)) * (Real.sqrt ((twoPi32 : ℚ) : ℝ))⁻¹

/-- The reference density `exp(-x²/2) / sqrt(2π)` of the spec, with the
constant 2π supplied at a chosen precision. -/
noncomputable def gaussianRef (twoPi : ℚ) (x : ℝ) : ℝ :=
  Real.exp (-(x ^ 2) / 2) / Real.sqrt ((twoPi : ℚ) : ℝ)

/-- `Gaussian::evaluate` in explicit state-passing form: the receiver
`&self` (the unit struct `Gaussian`) and any ambient state `M` are threaded
through the call; the body contains no state operation. -/
noncomputable def Gaussian.evaluateCall (M : Type) (mem : M) (x : ℝ) : ℝ × M :=
  (Gaussian.evaluate x, mem)

/-- The normalizing constant `(A::cast(2. * PI)).sqrt().recip()` of the
Gaussian kernel. -/
noncomputable def gaussConst : ℝ := (Real.sqrt ((twoPi32 : ℚ) : ℝ))⁻¹

/-! ### The shipped trapezoidal integral test

kernel.rs ships a quickcheck test `integral`: for `a ≤ b` it accumulates
`acc += DX * y / 2` with `y = Gaussian.evaluate` at the current grid point,
advancing `x` by `DX = 1e-3` while `x < b`, adding each grid value once as the
right endpoint and once as the left endpoint of adjacent panels.  In exact
real arithmetic the k-th grid point is `a + k * DX` and the loop runs
`⌈(b - a) / DX⌉` times. -/

/-- The step `DX = 1e-3` of the shipped integral test (exact in `f32` and
`f64`: 1e-3 denotes a rounded constant, idealized here as the exact 1/1000). -/
noncomputable def DX : ℝ := 1 / 1000

/-- The number of iterations of the `while x < b` loop: the least k with
`a + k * DX ≥ b`. -/
noncomputable def numSteps (a b : ℝ) : ℕ := ⌈(b - a) / DX⌉₊

/-- The trapezoidal accumulation of the shipped test over `n` panels starting
at `a`: each iteration adds `DX * y / 2` for the left endpoint and then for
the right endpoint of the current panel. -/
noncomputable def trapSum (a : ℝ) (n : ℕ) : ℝ :=
  ∑ i ∈ Finset.range n,
    (DX * Gaussian.evaluate (a + i * DX) / 2
      + DX * Gaussian.evaluate (a + (i + 1) * DX) / 2)

/-- The value of `acc` when the loop of the shipped integral test exits. -/
noncomputable def integralAcc (a b : ℝ) : ℝ := trapSum a (numSteps a b)

/-! ## Helper lemmas -/

/-- Dividing by a positive constant commutes with a `foldl Max.max`. -/
theorem foldl_max_map_div (m : ℚ) (hm : 0 < m) :
    ∀ (xs : List ℚ) (x : ℚ),
      (xs.map fun v => v / m).foldl Max.max (x / m) = xs.foldl Max.max x / m := by
  intro xs
  induction xs with
  | nil => intro x; rfl
  | cons a as ih =>
    intro x
    simp only [List.map_cons, List.foldl_cons]
    rw [max_div_div_right hm.le, ih]

/-- `Sample.max` of an elementwise division by a positive constant. -/
theorem Sample.max_map_div (y : List ℚ) (m : ℚ) (hm : 0 < m) (hne : y ≠ []) :
    Sample.max (y.map fun v => v / m) = Sample.max y / m := by
  cases y with
  | nil => exact absurd rfl hne
  | cons a as =>
    simp only [List.map_cons, Sample.max]
    exact foldl_max_map_div m hm as a

/-- The state-threading fold of `line_comparison` leaves the buffer component
of the state untouched and accumulates exactly the tuples. -/
theorem line_comparison_foldl (mem : List (ℚ × List ℚ)) :
    ∀ (acc : List (ℚ × ℚ)) (st : List (ℚ × List ℚ)),
      mem.foldl (fun st p => (st.1 ++ [(p.1, Sample.mean p.2)], st.2)) (acc, st)
        = (acc ++ lineTuples mem, st) := by
  induction mem with
  | nil => intro acc st; simp [lineTuples]
  | cons p rest ih =>
    intro acc st
    simp only [List.foldl_cons]
    rw [ih]
    simp [lineTuples]

/-- The state-threading fold of `violin` leaves the buffer component of the
state untouched and accumulates exactly the normalized curves. -/
theorem violinRun_foldl (sweep : List ℚ → List ℚ × List ℚ) :
    ∀ (curves : List (List ℚ)) (st : List (List ℚ)) (acc : List (List ℚ × List ℚ)),
      curves.foldl (fun st sample => (st.1, st.2 ++ [violinCurve sweep sample])) (st, acc)
        = (st, acc ++ curves.map (violinCurve sweep)) := by
  intro curves
  induction curves with
  | nil => intro st acc; simp
  | cons c rest ih =>
    intro st acc
    simp only [List.foldl_cons]
    rw [ih]
    simp

/-- `violinMinMax` returns `none` exactly when the positive-x filter is empty. -/
theorem violinMinMax_none_iff (kdes : List (List ℚ × List ℚ)) :
    violinMinMax kdes = none ↔
      (kdes.flatMap fun c => c.1).filter (fun x => decide (0 < x)) = [] := by
  unfold violinMinMax
  cases hfil : (kdes.flatMap fun c => c.1).filter (fun x => decide (0 < x)) with
  | nil => simp [hfil]
  | cons a as => simp [hfil]

/-! ### Analytic facts about the Gaussian kernel -/

/-- The f32 2π constant is positive. -/
theorem twoPi32_cast_pos : (0 : ℝ) < ((twoPi32 : ℚ) : ℝ) := by
  have h : (0 : ℚ) < twoPi32 := by norm_num [twoPi32, pi32]
  exact_mod_cast h

/-- Its square root is positive. -/
theorem sqrt_twoPi32_pos : 0 < Real.sqrt ((twoPi32 : ℚ) : ℝ) :=
  Real.sqrt_pos.mpr twoPi32_cast_pos

/-- The kernel's normalizing constant is positive. -/
theorem gaussConst_pos : 0 < gaussConst :=
  inv_pos.mpr sqrt_twoPi32_pos

/-- The kernel's normalizing constant is at most 1. -/
theorem gaussConst_le_one : gaussConst ≤ 1 := by
  rw [gaussConst]
  have h1 : (1 : ℝ) ≤ Real.sqrt ((twoPi32 : ℚ) : ℝ) := by
    rw [Real.one_le_sqrt]
    exact_mod_cast (by norm_num [twoPi32, pi32] : (1 : ℚ) ≤ twoPi32)
  exact inv_le_one_of_one_le₀ h1

/-- `Gaussian.evaluate` in the shape used by the Gaussian-integral lemmas. -/
theorem evaluate_eq_exp_mul (x : ℝ) :
    Gaussian.evaluate x = Real.exp (-(1 / 2 : ℝ) * x ^ 2) * gaussConst := by
  unfold Gaussian.evaluate gaussConst
  have h : x ^ 2 * (-(1 / 2) : ℝ) = -(1 / 2 : ℝ) * x ^ 2 := by ring
  rw [h]

/-- The kernel is nonnegative. -/
theorem evaluate_nonneg (x : ℝ) : 0 ≤ Gaussian.evaluate x := by
  rw [evaluate_eq_exp_mul]
  exact mul_nonneg (Real.exp_pos _).le gaussConst_pos.le

/-- The kernel is bounded by its normalizing constant. -/
theorem evaluate_le_const (x : ℝ) : Gaussian.evaluate x ≤ gaussConst := by
  rw [evaluate_eq_exp_mul]
  have h1 : Real.exp (-(1 / 2 : ℝ) * x ^ 2) ≤ 1 := by
    rw [Real.exp_le_one_iff]
    nlinarith [sq_nonneg x]
  nlinarith [gaussConst_pos]

/-- The kernel increases on the negative half-line. -/
theorem evaluate_monotoneOn : MonotoneOn Gaussian.evaluate (Set.Iic 0) := by
  intro u hu v hv huv
  simp only [Set.mem_Iic] at hu hv
  rw [evaluate_eq_exp_mul, evaluate_eq_exp_mul]
  apply mul_le_mul_of_nonneg_right _ gaussConst_pos.le
  rw [Real.exp_le_exp]
  nlinarith

/-- The kernel decreases on the positive half-line. -/
theorem evaluate_antitoneOn : AntitoneOn Gaussian.evaluate (Set.Ici 0) := by
  intro u hu v hv huv
  simp only [Set.mem_Ici] at hu hv
  rw [evaluate_eq_exp_mul, evaluate_eq_exp_mul]
  apply mul_le_mul_of_nonneg_right _ gaussConst_pos.le
  rw [Real.exp_le_exp]
  nlinarith

/-- The kernel is integrable over the line. -/
theorem evaluate_integrable : MeasureTheory.Integrable Gaussian.evaluate := by
  have hfun : Gaussian.evaluate
      = fun x => Real.exp (-(1 / 2 : ℝ) * x ^ 2) * gaussConst :=
    funext evaluate_eq_exp_mul
  rw [hfun]
  exact (integrable_exp_neg_mul_sq (by norm_num : (0 : ℝ) < 1 / 2)).mul_const gaussConst

/-- The full-line integral of the kernel. -/
theorem evaluate_integral_eq :
    (∫ x, Gaussian.evaluate x) = Real.sqrt (2 * Real.pi) * gaussConst := by
  have hfun : Gaussian.evaluate
      = fun x => Real.exp (-(1 / 2 : ℝ) * x ^ 2) * gaussConst :=
    funext evaluate_eq_exp_mul
  rw [hfun, MeasureTheory.integral_mul_right, integral_gaussian]
  have h : Real.pi / (1 / 2 : ℝ) = 2 * Real.pi := by ring
  rw [h]

/-- The full-line integral is at most 1: the f32 value of 2π exceeds 2π. -/
theorem evaluate_integral_le_one : (∫ x, Gaussian.evaluate x) ≤ 1 := by
  rw [evaluate_integral_eq]
  have hpi : Real.pi ≤ 3.14159265358979323847 := Real.pi_lt_d20.le
  have hq : (628318530717958647694 : ℚ) / 10 ^ 20 ≤ twoPi32 := by
    norm_num [twoPi32, pi32]
  have hc' : (((628318530717958647694 : ℚ) / 10 ^ 20 : ℚ) : ℝ) ≤ ((twoPi32 : ℚ) : ℝ) :=
    Rat.cast_le.mpr hq
  have hc : ((628318530717958647694 : ℝ) / 10 ^ 20) ≤ ((twoPi32 : ℚ) : ℝ) := by
    push_cast at hc'
    exact hc'
  have hs : Real.sqrt (2 * Real.pi) ≤ Real.sqrt ((twoPi32 : ℚ) : ℝ) := by
    apply Real.sqrt_le_sqrt
    nlinarith
  calc Real.sqrt (2 * Real.pi) * gaussConst
      ≤ Real.sqrt ((twoPi32 : ℚ) : ℝ) * gaussConst :=
        mul_le_mul_of_nonneg_right hs gaussConst_pos.le
    _ = 1 := by
        rw [gaussConst, mul_inv_cancel₀ sqrt_twoPi32_pos.ne']

/-- The full-line integral is at least 1 - 1/1000: the f32 value of 2π is
within a relative 1e-3 of 2π. -/
theorem evaluate_integral_ge : 1 - 1 / 1000 ≤ ∫ x, Gaussian.evaluate x := by
  rw [evaluate_integral_eq]
  have hq : twoPi32 ≤ (62831855 : ℚ) / 10 ^ 7 := by
    norm_num [twoPi32, pi32]
  have hc' : ((twoPi32 : ℚ) : ℝ) ≤ (((62831855 : ℚ) / 10 ^ 7 : ℚ) : ℝ) :=
    Rat.cast_le.mpr hq
  have hc : ((twoPi32 : ℚ) : ℝ) ≤ (62831855 : ℝ) / 10 ^ 7 := by
    push_cast at hc'
    exact hc'
  have hpi : (3.141592 : ℝ) < Real.pi := Real.pi_gt_d6
  have h1 : ((1 : ℝ) - 1 / 1000) * Real.sqrt ((twoPi32 : ℚ) : ℝ)
      ≤ Real.sqrt (2 * Real.pi) := by
    apply (Real.le_sqrt (by positivity) (by positivity)).mpr
    rw [mul_pow, Real.sq_sqrt twoPi32_cast_pos.le]
    nlinarith
  calc (1 : ℝ) - 1 / 1000
      = ((1 - 1 / 1000) * Real.sqrt ((twoPi32 : ℚ) : ℝ))
          * (Real.sqrt ((twoPi32 : ℚ) : ℝ))⁻¹ := by
        rw [mul_assoc, mul_inv_cancel₀ sqrt_twoPi32_pos.ne', mul_one]
    _ ≤ Real.sqrt (2 * Real.pi) * (Real.sqrt ((twoPi32 : ℚ) : ℝ))⁻¹ :=
        mul_le_mul_of_nonneg_right h1 (inv_pos.mpr sqrt_twoPi32_pos).le
    _ = Real.sqrt (2 * Real.pi) * gaussConst := by rw [gaussConst]

/-- exp 10 dominates 1000. -/
theorem exp_ten_ge : (1000 : ℝ) ≤ Real.exp 10 := by
  have h2 : (2 : ℝ) ≤ Real.exp 1 := by
    have h := Real.add_one_le_exp 1
    linarith
  have he : Real.exp 10 = Real.exp 1 ^ (10 : ℕ) := by
    rw [← Real.exp_nat_mul]
    norm_num
  have h10 : (2 : ℝ) ^ (10 : ℕ) ≤ Real.exp 1 ^ (10 : ℕ) :=
    pow_le_pow_left₀ (by norm_num) h2 10
  rw [he]
  calc (1000 : ℝ) ≤ 2 ^ (10 : ℕ) := by norm_num
    _ ≤ Real.exp 1 ^ (10 : ℕ) := h10

/-- exp (-10) is below 1/1000. -/
theorem exp_neg_ten_le : Real.exp (-10) ≤ 1 / 1000 := by
  rw [Real.exp_neg, one_div]
  exact inv_anti₀ (by norm_num) exp_ten_ge

/-- Right Gaussian tail beyond 10 is below 1/1000. -/
theorem tail_right_le : (∫ x in Set.Ioi (10 : ℝ), Gaussian.evaluate x) ≤ 1 / 1000 := by
  have hmono : ∀ x ∈ Set.Ioi (10 : ℝ), Gaussian.evaluate x ≤ Real.exp (-x) := by
    intro x hx
    simp only [Set.mem_Ioi] at hx
    rw [evaluate_eq_exp_mul]
    calc Real.exp (-(1 / 2 : ℝ) * x ^ 2) * gaussConst
        ≤ Real.exp (-(1 / 2 : ℝ) * x ^ 2) * 1 :=
          mul_le_mul_of_nonneg_left gaussConst_le_one (Real.exp_pos _).le
      _ = Real.exp (-(1 / 2 : ℝ) * x ^ 2) := mul_one _
      _ ≤ Real.exp (-x) := by
          rw [Real.exp_le_exp]
          nlinarith
  have hexpint : MeasureTheory.IntegrableOn (fun x : ℝ => Real.exp (-x))
      (Set.Ioi (10 : ℝ)) := by
    have h := exp_neg_integrableOn_Ioi 10 (by norm_num : (0 : ℝ) < 1)
    have hfun : (fun x : ℝ => Real.exp (-1 * x)) = fun x : ℝ => Real.exp (-x) := by
      funext x
      norm_num
    rwa [hfun] at h
  have hint : (∫ x in Set.Ioi (10 : ℝ), Gaussian.evaluate x)
      ≤ ∫ x in Set.Ioi (10 : ℝ), Real.exp (-x) :=
    MeasureTheory.setIntegral_mono_on evaluate_integrable.integrableOn hexpint
      measurableSet_Ioi hmono
  rw [integral_exp_neg_Ioi] at hint
  exact hint.trans exp_neg_ten_le

/-- Left Gaussian tail below -10 is below 1/1000. -/
theorem tail_left_le : (∫ x in Set.Iic (-10 : ℝ), Gaussian.evaluate x) ≤ 1 / 1000 := by
  have hmono : ∀ x ∈ Set.Iic (-10 : ℝ), Gaussian.evaluate x ≤ Real.exp x := by
    intro x hx
    simp only [Set.mem_Iic] at hx
    rw [evaluate_eq_exp_mul]
    calc Real.exp (-(1 / 2 : ℝ) * x ^ 2) * gaussConst
        ≤ Real.exp (-(1 / 2 : ℝ) * x ^ 2) * 1 :=
          mul_le_mul_of_nonneg_left gaussConst_le_one (Real.exp_pos _).le
      _ = Real.exp (-(1 / 2 : ℝ) * x ^ 2) := mul_one _
      _ ≤ Real.exp x := by
          rw [Real.exp_le_exp]
          nlinarith
  have hint : (∫ x in Set.Iic (-10 : ℝ), Gaussian.evaluate x)
      ≤ ∫ x in Set.Iic (-10 : ℝ), Real.exp x :=
    MeasureTheory.setIntegral_mono_on evaluate_integrable.integrableOn
      (integrableOn_exp_Iic (-10)) measurableSet_Iic hmono
  rw [integral_exp_Iic] at hint
  exact hint.trans exp_neg_ten_le

/-! ### Bounds on equally spaced sums of the kernel -/

/-- The step is positive. -/
theorem DX_pos : (0 : ℝ) < DX := by norm_num [DX]

/-- Change of variables turning a unit-spaced integral of the rescaled kernel
into an integral of the kernel over the matching grid interval. -/
theorem comp_grid_integral (c : ℝ) (r : ℕ) :
    (∫ t in (0 : ℝ)..((0 : ℝ) + (r : ℕ)), Gaussian.evaluate (DX * t + c))
      = DX⁻¹ * ∫ x in c..(c + (r : ℕ) * DX), Gaussian.evaluate x := by
  rw [intervalIntegral.integral_comp_mul_add Gaussian.evaluate DX_pos.ne' c]
  have h1 : DX * 0 + c = c := by ring
  have h2 : DX * ((0 : ℝ) + (r : ℕ)) + c = c + (r : ℕ) * DX := by ring
  rw [h1, h2, smul_eq_mul]

/-- Interval integrals of the kernel are monotone in the interval, relative to
any Iic / Ioi superset. -/
theorem integral_Ioc_le_of_subset {u v : ℝ} {s : Set ℝ} (huv : u ≤ v)
    (hsub : Set.Ioc u v ⊆ s) :
    (∫ x in u..v, Gaussian.evaluate x) ≤ ∫ x in s, Gaussian.evaluate x := by
  rw [intervalIntegral.integral_of_le huv]
  exact MeasureTheory.setIntegral_mono_set evaluate_integrable.integrableOn
    (Filter.Eventually.of_forall fun x => evaluate_nonneg x)
    (HasSubset.Subset.eventuallyLE hsub)

/-- A left-endpoint Riemann sum over a grid lying in the negative half-line is
at most the Iic-0 mass of the kernel plus one panel of slack. -/
theorem gridSum_left_le (a : ℝ) (p : ℕ)
    (hneg : ∀ i : ℕ, i < p → a + i * DX < 0) :
    DX * ∑ i ∈ Finset.range p, Gaussian.evaluate (a + i * DX)
      ≤ (∫ x in Set.Iic (0 : ℝ), Gaussian.evaluate x) + DX * gaussConst := by
  have hIic : 0 ≤ ∫ x in Set.Iic (0 : ℝ), Gaussian.evaluate x :=
    MeasureTheory.setIntegral_nonneg measurableSet_Iic fun x _ => evaluate_nonneg x
  have hDK : 0 ≤ DX * gaussConst := mul_nonneg DX_pos.le gaussConst_pos.le
  cases p with
  | zero =>
    simp only [Finset.range_zero, Finset.sum_empty, mul_zero]
    linarith
  | succ r =>
    have hxr : a + r * DX < 0 := hneg r (Nat.lt_succ_self r)
    have hmono : MonotoneOn (fun t : ℝ => Gaussian.evaluate (DX * t + a))
        (Set.Icc (0 : ℝ) ((0 : ℝ) + (r : ℕ))) := by
      intro s hs t ht hst
      simp only [Set.mem_Icc] at hs ht
      apply evaluate_monotoneOn
      · simp only [Set.mem_Iic]
        nlinarith [hs.2, DX_pos]
      · simp only [Set.mem_Iic]
        nlinarith [ht.2, DX_pos]
      · nlinarith [DX_pos]
    have hsum := hmono.sum_le_integral
    rw [comp_grid_integral a r] at hsum
    have harg : ∀ i : ℕ, DX * ((0 : ℝ) + (i : ℕ)) + a = a + (i : ℕ) * DX := by
      intro i
      ring
    simp only [harg] at hsum
    have hab : a ≤ a + (r : ℕ) * DX := by nlinarith [DX_pos, (Nat.cast_nonneg r : (0 : ℝ) ≤ (r : ℕ))]
    have hsub : Set.Ioc a (a + (r : ℕ) * DX) ⊆ Set.Iic (0 : ℝ) := fun x hx =>
      Set.mem_Iic.mpr (hx.2.trans hxr.le)
    have hIle : (∫ x in a..(a + (r : ℕ) * DX), Gaussian.evaluate x)
        ≤ ∫ x in Set.Iic (0 : ℝ), Gaussian.evaluate x :=
      integral_Ioc_le_of_subset hab hsub
    have h1 : ∑ i ∈ Finset.range r, Gaussian.evaluate (a + i * DX)
        ≤ DX⁻¹ * ∫ x in Set.Iic (0 : ℝ), Gaussian.evaluate x :=
      hsum.trans (mul_le_mul_of_nonneg_left hIle (inv_pos.mpr DX_pos).le)
    rw [Finset.sum_range_succ]
    have hterm : Gaussian.evaluate (a + r * DX) ≤ gaussConst := evaluate_le_const _
    calc DX * (∑ i ∈ Finset.range r, Gaussian.evaluate (a + i * DX)
          + Gaussian.evaluate (a + r * DX))
        = DX * ∑ i ∈ Finset.range r, Gaussian.evaluate (a + i * DX)
          + DX * Gaussian.evaluate (a + r * DX) := by ring
      _ ≤ DX * (DX⁻¹ * ∫ x in Set.Iic (0 : ℝ), Gaussian.evaluate x)
          + DX * gaussConst := by
          apply add_le_add
          · exact mul_le_mul_of_nonneg_left h1 DX_pos.le
          · exact mul_le_mul_of_nonneg_left hterm DX_pos.le
      _ = (∫ x in Set.Iic (0 : ℝ), Gaussian.evaluate x) + DX * gaussConst := by
          rw [← mul_assoc, mul_inv_cancel₀ DX_pos.ne', one_mul]

/-- A left-endpoint Riemann sum over a grid starting in the nonnegative
half-line is at most the Ioi-0 mass of the kernel plus one panel of slack. -/
theorem gridSum_right_le (c : ℝ) (q : ℕ) (hc : 0 ≤ c) :
    DX * ∑ i ∈ Finset.range q, Gaussian.evaluate (c + i * DX)
      ≤ (∫ x in Set.Ioi (0 : ℝ), Gaussian.evaluate x) + DX * gaussConst := by
  have hIoi : 0 ≤ ∫ x in Set.Ioi (0 : ℝ), Gaussian.evaluate x :=
    MeasureTheory.setIntegral_nonneg measurableSet_Ioi fun x _ => evaluate_nonneg x
  have hDK : 0 ≤ DX * gaussConst := mul_nonneg DX_pos.le gaussConst_pos.le
  cases q with
  | zero =>
    simp only [Finset.range_zero, Finset.sum_empty, mul_zero]
    linarith
  | succ r =>
    have hanti : AntitoneOn (fun t : ℝ => Gaussian.evaluate (DX * t + c))
        (Set.Icc (0 : ℝ) ((0 : ℝ) + (r : ℕ))) := by
      intro s hs t ht hst
      simp only [Set.mem_Icc] at hs ht
      apply evaluate_antitoneOn
      · simp only [Set.mem_Ici]
        nlinarith [hs.1, DX_pos]
      · simp only [Set.mem_Ici]
        nlinarith [ht.1, DX_pos]
      · nlinarith [DX_pos]
    have hsum := hanti.sum_le_integral
    rw [comp_grid_integral c r] at hsum
    have harg : ∀ i : ℕ, DX * ((0 : ℝ) + ((i + 1 : ℕ) : ℝ)) + c
        = c + ((i : ℝ) + 1) * DX := by
      intro i
      push_cast
      ring
    simp only [harg] at hsum
    have hab : c ≤ c + (r : ℕ) * DX := by nlinarith [DX_pos, (Nat.cast_nonneg r : (0 : ℝ) ≤ (r : ℕ))]
    have hsub : Set.Ioc c (c + (r : ℕ) * DX) ⊆ Set.Ioi (0 : ℝ) := fun x hx =>
      Set.mem_Ioi.mpr (lt_of_le_of_lt hc hx.1)
    have hIle : (∫ x in c..(c + (r : ℕ) * DX), Gaussian.evaluate x)
        ≤ ∫ x in Set.Ioi (0 : ℝ), Gaussian.evaluate x :=
      integral_Ioc_le_of_subset hab hsub
    have h1 : ∑ i ∈ Finset.range r, Gaussian.evaluate (c + ((i : ℝ) + 1) * DX)
        ≤ DX⁻¹ * ∫ x in Set.Ioi (0 : ℝ), Gaussian.evaluate x :=
      hsum.trans (mul_le_mul_of_nonneg_left hIle (inv_pos.mpr DX_pos).le)
    rw [Finset.sum_range_succ']
    have hcast : ∀ i : ℕ, c + ((i + 1 : ℕ) : ℝ) * DX = c + ((i : ℝ) + 1) * DX := by
      intro i
      push_cast
      ring
    simp only [hcast, Nat.cast_zero, zero_mul, add_zero]
    have hterm : Gaussian.evaluate c ≤ gaussConst := evaluate_le_const _
    calc DX * ((∑ i ∈ Finset.range r, Gaussian.evaluate (c + ((i : ℝ) + 1) * DX))
          + Gaussian.evaluate c)
        = DX * (∑ i ∈ Finset.range r, Gaussian.evaluate (c + ((i : ℝ) + 1) * DX))
          + DX * Gaussian.evaluate c := by ring
      _ ≤ DX * (DX⁻¹ * ∫ x in Set.Ioi (0 : ℝ), Gaussian.evaluate x)
          + DX * gaussConst := by
          apply add_le_add
          · exact mul_le_mul_of_nonneg_left h1 DX_pos.le
          · exact mul_le_mul_of_nonneg_left hterm DX_pos.le
      _ = (∫ x in Set.Ioi (0 : ℝ), Gaussian.evaluate x) + DX * gaussConst := by
          rw [← mul_assoc, mul_inv_cancel₀ DX_pos.ne', one_mul]

/-- Any left-endpoint Riemann sum of the kernel on a `DX`-grid is bounded by
the full-line mass plus two panels of slack. -/
theorem gridSum_le (a : ℝ) (m : ℕ) :
    DX * ∑ i ∈ Finset.range m, Gaussian.evaluate (a + i * DX)
      ≤ (∫ x, Gaussian.evaluate x) + 2 * (DX * gaussConst) := by
  have hIic : 0 ≤ ∫ x in Set.Iic (0 : ℝ), Gaussian.evaluate x :=
    MeasureTheory.setIntegral_nonneg measurableSet_Iic fun x _ => evaluate_nonneg x
  have hIoi : 0 ≤ ∫ x in Set.Ioi (0 : ℝ), Gaussian.evaluate x :=
    MeasureTheory.setIntegral_nonneg measurableSet_Ioi fun x _ => evaluate_nonneg x
  have hDK : 0 ≤ DX * gaussConst := mul_nonneg DX_pos.le gaussConst_pos.le
  have hsplit : (∫ x in Set.Iic (0 : ℝ), Gaussian.evaluate x)
      + (∫ x in Set.Ioi (0 : ℝ), Gaussian.evaluate x) = ∫ x, Gaussian.evaluate x :=
    intervalIntegral.integral_Iic_add_Ioi evaluate_integrable.integrableOn
      evaluate_integrable.integrableOn
  rcases le_or_lt m ⌈(-a) / DX⌉₊ with hm | hm
  · have hneg : ∀ i : ℕ, i < m → a + i * DX < 0 := by
      intro i hi
      have h1 : ((i : ℕ) : ℝ) < (-a) / DX := Nat.lt_ceil.mp (lt_of_lt_of_le hi hm)
      have h2 : ((i : ℕ) : ℝ) * DX < -a := (lt_div_iff DX_pos).mp h1
      linarith
    have h := gridSum_left_le a m hneg
    linarith
  · have hmeq : m = ⌈(-a) / DX⌉₊ + (m - ⌈(-a) / DX⌉₊) :=
      (Nat.add_sub_cancel' hm.le).symm
    rw [hmeq, Finset.sum_range_add]
    have hneg : ∀ i : ℕ, i < ⌈(-a) / DX⌉₊ → a + i * DX < 0 := by
      intro i hi
      have h1 : ((i : ℕ) : ℝ) < (-a) / DX := Nat.lt_ceil.mp hi
      have h2 : ((i : ℕ) : ℝ) * DX < -a := (lt_div_iff DX_pos).mp h1
      linarith
    have hleft := gridSum_left_le a ⌈(-a) / DX⌉₊ hneg
    have hc : 0 ≤ a + (⌈(-a) / DX⌉₊ : ℝ) * DX := by
      have h1 : (-a) / DX ≤ (⌈(-a) / DX⌉₊ : ℝ) := Nat.le_ceil _
      have h2 : -a ≤ (⌈(-a) / DX⌉₊ : ℝ) * DX := (div_le_iff DX_pos).mp h1
      linarith
    have hright := gridSum_right_le (a + (⌈(-a) / DX⌉₊ : ℝ) * DX)
      (m - ⌈(-a) / DX⌉₊) hc
    have hcast : ∀ i : ℕ, a + ((⌈(-a) / DX⌉₊ + i : ℕ) : ℝ) * DX
        = (a + (⌈(-a) / DX⌉₊ : ℝ) * DX) + (i : ℝ) * DX := by
      intro i
      push_cast
      ring
    simp only [hcast]
    rw [mul_add]
    linarith

/-- The trapezoidal accumulation is nonnegative. -/
theorem trapSum_nonneg (a : ℝ) (n : ℕ) : 0 ≤ trapSum a n := by
  unfold trapSum
  apply Finset.sum_nonneg
  intro i _
  have h1 := evaluate_nonneg (a + i * DX)
  have h2 := evaluate_nonneg (a + ((i : ℝ) + 1) * DX)
  nlinarith [DX_pos]

/-- The trapezoidal accumulation is at most the left-endpoint sum over one
extra grid point. -/
theorem trapSum_le_grid (a : ℝ) (n : ℕ) :
    trapSum a n ≤ DX * ∑ i ∈ Finset.range (n + 1), Gaussian.evaluate (a + i * DX) := by
  unfold trapSum
  rw [Finset.sum_add_distrib]
  have hA : ∑ i ∈ Finset.range n, DX * Gaussian.evaluate (a + i * DX) / 2
      ≤ DX / 2 * ∑ i ∈ Finset.range (n + 1), Gaussian.evaluate (a + i * DX) := by
    rw [Finset.mul_sum, Finset.sum_range_succ]
    have hterm : 0 ≤ DX / 2 * Gaussian.evaluate (a + n * DX) :=
      mul_nonneg (by linarith [DX_pos]) (evaluate_nonneg _)
    have hsum_eq : ∑ i ∈ Finset.range n, DX * Gaussian.evaluate (a + i * DX) / 2
        = ∑ i ∈ Finset.range n, DX / 2 * Gaussian.evaluate (a + i * DX) := by
      apply Finset.sum_congr rfl
      intro i _
      ring
    rw [hsum_eq]
    linarith
  have hB : ∑ i ∈ Finset.range n, DX * Gaussian.evaluate (a + ((i : ℝ) + 1) * DX) / 2
      ≤ DX / 2 * ∑ i ∈ Finset.range (n + 1), Gaussian.evaluate (a + i * DX) := by
    rw [Finset.mul_sum, Finset.sum_range_succ']
    have hterm : 0 ≤ DX / 2 * Gaussian.evaluate (a + ((0 : ℕ) : ℝ) * DX) :=
      mul_nonneg (by linarith [DX_pos]) (evaluate_nonneg _)
    have hsum_eq : ∑ i ∈ Finset.range n, DX * Gaussian.evaluate (a + ((i : ℝ) + 1) * DX) / 2
        = ∑ i ∈ Finset.range n, DX / 2 * Gaussian.evaluate (a + ((i + 1 : ℕ) : ℝ) * DX) := by
      apply Finset.sum_congr rfl
      intro i _
      have hc : a + ((i + 1 : ℕ) : ℝ) * DX = a + ((i : ℝ) + 1) * DX := by
        push_cast
        ring
      rw [hc]
      ring
    rw [hsum_eq]
    linarith
  linarith

/-- The loop's accumulator never exceeds 1 + 1/100, for any bounds. -/
theorem integralAcc_le_one_plus (a b : ℝ) : integralAcc a b ≤ 1 + 1 / 100 := by
  have h1 := trapSum_le_grid a (numSteps a b)
  have h2 := gridSum_le a (numSteps a b + 1)
  have h3 := evaluate_integral_le_one
  have hDXeq : DX = 1 / 1000 := rfl
  have h4 : DX * gaussConst ≤ 1 / 1000 := by
    rw [hDXeq]
    nlinarith [gaussConst_pos, gaussConst_le_one]
  show trapSum a (numSteps a b) ≤ 1 + 1 / 100
  linarith

/-- One panel of the kernel integrates to at most `DX * gaussConst`. -/
theorem panel_le (u : ℝ) :
    (∫ x in u..(u + DX), Gaussian.evaluate x) ≤ DX * gaussConst := by
  have hle : u ≤ u + DX := by linarith [DX_pos]
  have h := intervalIntegral.integral_mono_on hle
    evaluate_integrable.intervalIntegrable intervalIntegrable_const
    fun x _ => evaluate_le_const x
  rw [intervalIntegral.integral_const] at h
  have he : (u + DX - u) • gaussConst = DX * gaussConst := by
    rw [smul_eq_mul]
    ring
  rw [he] at h
  exact h

/-- The kernel's integral over a grid interval in the negative half-line is at
most the right-endpoint sum over the grid. -/
theorem integral_le_gridSum_shift (c : ℝ) (r : ℕ)
    (hend : c + (r : ℕ) * DX ≤ 0) :
    DX⁻¹ * (∫ x in c..(c + (r : ℕ) * DX), Gaussian.evaluate x)
      ≤ ∑ i ∈ Finset.range r, Gaussian.evaluate (c + ((i : ℝ) + 1) * DX) := by
  have hmono : MonotoneOn (fun t : ℝ => Gaussian.evaluate (DX * t + c))
      (Set.Icc (0 : ℝ) ((0 : ℝ) + (r : ℕ))) := by
    intro s hs t ht hst
    simp only [Set.mem_Icc] at hs ht
    apply evaluate_monotoneOn
    · simp only [Set.mem_Iic]
      nlinarith [hs.2, DX_pos]
    · simp only [Set.mem_Iic]
      nlinarith [ht.2, DX_pos]
    · nlinarith [DX_pos]
  have h := hmono.integral_le_sum
  rw [comp_grid_integral c r] at h
  have harg : ∀ i : ℕ, DX * ((0 : ℝ) + ((i + 1 : ℕ) : ℝ)) + c
      = c + ((i : ℝ) + 1) * DX := by
    intro i
    push_cast
    ring
  simp only [harg] at h
  exact h

/-- The kernel's integral over a grid interval in the nonnegative half-line is
at most the left-endpoint sum over the grid. -/
theorem integral_le_gridSum_left (c : ℝ) (r : ℕ) (hc : 0 ≤ c) :
    DX⁻¹ * (∫ x in c..(c + (r : ℕ) * DX), Gaussian.evaluate x)
      ≤ ∑ i ∈ Finset.range r, Gaussian.evaluate (c + (i : ℝ) * DX) := by
  have hanti : AntitoneOn (fun t : ℝ => Gaussian.evaluate (DX * t + c))
      (Set.Icc (0 : ℝ) ((0 : ℝ) + (r : ℕ))) := by
    intro s hs t ht hst
    simp only [Set.mem_Icc] at hs ht
    apply evaluate_antitoneOn
    · simp only [Set.mem_Ici]
      nlinarith [hs.1, DX_pos]
    · simp only [Set.mem_Ici]
      nlinarith [ht.1, DX_pos]
    · nlinarith [DX_pos]
  have h := hanti.integral_le_sum
  rw [comp_grid_integral c r] at h
  have harg : ∀ i : ℕ, DX * ((0 : ℝ) + (i : ℕ)) + c = c + (i : ℝ) * DX := by
    intro i
    ring
  simp only [harg] at h
  exact h

/-- The test's loop over [-10, 10] runs exactly 20000 iterations. -/
theorem numSteps_wide : numSteps (-10) 10 = 20000 := by
  unfold numSteps
  have h : ((10 : ℝ) - (-10)) / DX = 20000 := by
    rw [show DX = 1 / 1000 from rfl]
    norm_num
  rw [h]
  norm_num

/-- Lower bound for the first half of the left-endpoint sum on [-10, 10]. -/
theorem wide_S1a :
    DX⁻¹ * (∫ x in (-10 : ℝ)..(-(1 / 1000) : ℝ), Gaussian.evaluate x)
      ≤ ∑ i ∈ Finset.range 10000, Gaussian.evaluate (-10 + (i : ℝ) * DX) := by
  have hDXeq : DX = 1 / 1000 := rfl
  have h := integral_le_gridSum_shift (-10) 9999
    (by rw [hDXeq]; push_cast; norm_num)
  have hend : (-10 : ℝ) + ((9999 : ℕ) : ℝ) * DX = -(1 / 1000) := by
    rw [hDXeq]
    push_cast
    norm_num
  rw [hend] at h
  rw [show (10000 : ℕ) = 9999 + 1 from by norm_num, Finset.sum_range_succ']
  have hcast : ∀ i : ℕ, (-10 : ℝ) + ((i + 1 : ℕ) : ℝ) * DX
      = -10 + ((i : ℝ) + 1) * DX := by
    intro i
    push_cast
    ring
  simp only [hcast, Nat.cast_zero, zero_mul, add_zero]
  linarith [h, evaluate_nonneg (-10 : ℝ)]

/-- Lower bound for the second half of the left-endpoint sum on [-10, 10]. -/
theorem wide_S1b :
    DX⁻¹ * (∫ x in (0 : ℝ)..(10 : ℝ), Gaussian.evaluate x)
      ≤ ∑ i ∈ Finset.range 10000,
          Gaussian.evaluate (-10 + ((10000 + i : ℕ) : ℝ) * DX) := by
  have hDXeq : DX = 1 / 1000 := rfl
  have h := integral_le_gridSum_left 0 10000 le_rfl
  have hend : (0 : ℝ) + ((10000 : ℕ) : ℝ) * DX = 10 := by
    rw [hDXeq]
    push_cast
    norm_num
  rw [hend] at h
  have hcast : ∀ i : ℕ, (0 : ℝ) + (i : ℝ) * DX
      = -10 + ((10000 + i : ℕ) : ℝ) * DX := by
    intro i
    rw [hDXeq]
    push_cast
    ring
  simp only [hcast] at h
  exact h

/-- Lower bound for the first half of the right-endpoint sum on [-10, 10]. -/
theorem wide_S2a :
    DX⁻¹ * (∫ x in (-10 : ℝ)..(0 : ℝ), Gaussian.evaluate x)
      ≤ ∑ i ∈ Finset.range 10000, Gaussian.evaluate (-10 + ((i : ℝ) + 1) * DX) := by
  have hDXeq : DX = 1 / 1000 := rfl
  have h := integral_le_gridSum_shift (-10) 10000
    (by rw [hDXeq]; push_cast; norm_num)
  have hend : (-10 : ℝ) + ((10000 : ℕ) : ℝ) * DX = 0 := by
    rw [hDXeq]
    push_cast
    norm_num
  rw [hend] at h
  exact h

/-- Lower bound for the second half of the right-endpoint sum on [-10, 10]. -/
theorem wide_S2b :
    DX⁻¹ * (∫ x in (1 / 1000 : ℝ)..(10 + 1 / 1000 : ℝ), Gaussian.evaluate x)
      ≤ ∑ i ∈ Finset.range 10000,
          Gaussian.evaluate (-10 + (((10000 + i : ℕ) : ℝ) + 1) * DX) := by
  have hDXeq : DX = 1 / 1000 := rfl
  have h := integral_le_gridSum_left (1 / 1000) 10000 (by norm_num)
  have hend : (1 / 1000 : ℝ) + ((10000 : ℕ) : ℝ) * DX = 10 + 1 / 1000 := by
    rw [hDXeq]
    push_cast
    norm_num
  rw [hend] at h
  have hcast : ∀ i : ℕ, (1 / 1000 : ℝ) + (i : ℝ) * DX
      = -10 + (((10000 + i : ℕ) : ℝ) + 1) * DX := by
    intro i
    rw [hDXeq]
    push_cast
    ring
  simp only [hcast] at h
  exact h

/-- Over the wide symmetric interval [-10, 10] the accumulator reaches at
least 1 - 1/100. -/
theorem integralAcc_wide_ge : 1 - 1 / 100 ≤ integralAcc (-10) 10 := by
  have hDXeq : DX = 1 / 1000 := rfl
  unfold integralAcc
  rw [numSteps_wide]
  unfold trapSum
  rw [Finset.sum_add_distrib]
  have hA : ∑ i ∈ Finset.range 20000, DX * Gaussian.evaluate (-10 + (i : ℝ) * DX) / 2
      = DX / 2 * ∑ i ∈ Finset.range 20000, Gaussian.evaluate (-10 + (i : ℝ) * DX) := by
    rw [Finset.mul_sum]
    apply Finset.sum_congr rfl
    intro i _
    ring
  have hB : ∑ i ∈ Finset.range 20000,
        DX * Gaussian.evaluate (-10 + ((i : ℝ) + 1) * DX) / 2
      = DX / 2 * ∑ i ∈ Finset.range 20000,
          Gaussian.evaluate (-10 + ((i : ℝ) + 1) * DX) := by
    rw [Finset.mul_sum]
    apply Finset.sum_congr rfl
    intro i _
    ring
  rw [hA, hB]
  have hS1split : (∑ i ∈ Finset.range 20000, Gaussian.evaluate (-10 + (i : ℝ) * DX))
      = (∑ i ∈ Finset.range 10000, Gaussian.evaluate (-10 + (i : ℝ) * DX))
        + ∑ i ∈ Finset.range 10000,
            Gaussian.evaluate (-10 + ((10000 + i : ℕ) : ℝ) * DX) := by
    rw [show (20000 : ℕ) = 10000 + 10000 from by norm_num, Finset.sum_range_add]
  have hS2split : (∑ i ∈ Finset.range 20000,
        Gaussian.evaluate (-10 + ((i : ℝ) + 1) * DX))
      = (∑ i ∈ Finset.range 10000, Gaussian.evaluate (-10 + ((i : ℝ) + 1) * DX))
        + ∑ i ∈ Finset.range 10000,
            Gaussian.evaluate (-10 + (((10000 + i : ℕ) : ℝ) + 1) * DX) := by
    rw [show (20000 : ℕ) = 10000 + 10000 from by norm_num, Finset.sum_range_add]
  have hS1ge : DX⁻¹ * (∫ x in (-10 : ℝ)..(-(1 / 1000) : ℝ), Gaussian.evaluate x)
      + DX⁻¹ * (∫ x in (0 : ℝ)..(10 : ℝ), Gaussian.evaluate x)
      ≤ ∑ i ∈ Finset.range 20000, Gaussian.evaluate (-10 + (i : ℝ) * DX) := by
    rw [hS1split]
    exact add_le_add wide_S1a wide_S1b
  have hS2ge : DX⁻¹ * (∫ x in (-10 : ℝ)..(0 : ℝ), Gaussian.evaluate x)
      + DX⁻¹ * (∫ x in (1 / 1000 : ℝ)..(10 + 1 / 1000 : ℝ), Gaussian.evaluate x)
      ≤ ∑ i ∈ Finset.range 20000, Gaussian.evaluate (-10 + ((i : ℝ) + 1) * DX) := by
    rw [hS2split]
    exact add_le_add wide_S2a wide_S2b
  have hmul1 := mul_le_mul_of_nonneg_left hS1ge (by linarith [DX_pos] : (0 : ℝ) ≤ DX / 2)
  have hmul2 := mul_le_mul_of_nonneg_left hS2ge (by linarith [DX_pos] : (0 : ℝ) ≤ DX / 2)
  have hinv : ((1 : ℝ) / 1000)⁻¹ = 1000 := by norm_num
  rw [hDXeq, hinv] at hmul1 hmul2
  have iInt : ∀ u v : ℝ, IntervalIntegrable Gaussian.evaluate MeasureTheory.volume u v :=
    fun u v => evaluate_integrable.intervalIntegrable
  have hI13 : (∫ x in (-10 : ℝ)..(-(1 / 1000) : ℝ), Gaussian.evaluate x)
      + (∫ x in (-(1 / 1000) : ℝ)..(0 : ℝ), Gaussian.evaluate x)
      = ∫ x in (-10 : ℝ)..(0 : ℝ), Gaussian.evaluate x :=
    intervalIntegral.integral_add_adjacent_intervals (iInt _ _) (iInt _ _)
  have hI22 : (∫ x in (0 : ℝ)..(1 / 1000 : ℝ), Gaussian.evaluate x)
      + (∫ x in (1 / 1000 : ℝ)..(10 : ℝ), Gaussian.evaluate x)
      = ∫ x in (0 : ℝ)..(10 : ℝ), Gaussian.evaluate x :=
    intervalIntegral.integral_add_adjacent_intervals (iInt _ _) (iInt _ _)
  have hI44 : (∫ x in (1 / 1000 : ℝ)..(10 : ℝ), Gaussian.evaluate x)
      + (∫ x in (10 : ℝ)..(10 + 1 / 1000 : ℝ), Gaussian.evaluate x)
      = ∫ x in (1 / 1000 : ℝ)..(10 + 1 / 1000 : ℝ), Gaussian.evaluate x :=
    intervalIntegral.integral_add_adjacent_intervals (iInt _ _) (iInt _ _)
  have hJ : (∫ x in (-10 : ℝ)..(0 : ℝ), Gaussian.evaluate x)
      + (∫ x in (0 : ℝ)..(10 : ℝ), Gaussian.evaluate x)
      = ∫ x in (-10 : ℝ)..(10 : ℝ), Gaussian.evaluate x :=
    intervalIntegral.integral_add_adjacent_intervals (iInt _ _) (iInt _ _)
  have hp1 : (∫ x in (-(1 / 1000) : ℝ)..(0 : ℝ), Gaussian.evaluate x)
      ≤ DX * gaussConst := by
    have h := panel_le (-(1 / 1000))
    rw [show (-(1 / 1000) : ℝ) + DX = 0 from by rw [hDXeq]; norm_num] at h
    exact h
  have hp2 : (∫ x in (0 : ℝ)..(1 / 1000 : ℝ), Gaussian.evaluate x)
      ≤ DX * gaussConst := by
    have h := panel_le 0
    rw [show (0 : ℝ) + DX = 1 / 1000 from by rw [hDXeq]; norm_num] at h
    exact h
  have hp3 : 0 ≤ ∫ x in (10 : ℝ)..(10 + 1 / 1000 : ℝ), Gaussian.evaluate x :=
    intervalIntegral.integral_nonneg (by norm_num) fun u _ => evaluate_nonneg u
  have hIic10 : (∫ x in Set.Iic (10 : ℝ), Gaussian.evaluate x)
      + (∫ x in Set.Ioi (10 : ℝ), Gaussian.evaluate x) = ∫ x, Gaussian.evaluate x :=
    intervalIntegral.integral_Iic_add_Ioi evaluate_integrable.integrableOn
      evaluate_integrable.integrableOn
  have hsub : (∫ x in Set.Iic (10 : ℝ), Gaussian.evaluate x)
      - (∫ x in Set.Iic (-10 : ℝ), Gaussian.evaluate x)
      = ∫ x in (-10 : ℝ)..(10 : ℝ), Gaussian.evaluate x :=
    intervalIntegral.integral_Iic_sub_Iic evaluate_integrable.integrableOn
      evaluate_integrable.integrableOn
  have hDXK : DX * gaussConst ≤ 1 / 1000 := by
    rw [hDXeq]
    nlinarith [gaussConst_pos, gaussConst_le_one]
  rw [hDXeq]
  linarith [hmul1, hmul2, hI13, hI22, hI44, hJ, hp1, hp2, hp3, hIic10, hsub,
    hDXK, tail_right_le, tail_left_le, evaluate_integral_ge]

/-! ## Claims -/

/-- C8: for every finite non-negative `ns`, `time` selects its unit suffix purely
by magnitude — "ps" when ns < 1, "ns" when 1 ≤ ns < 10³, "us" when
10³ ≤ ns < 10⁶, "ms" when 10⁶ ≤ ns < 10⁹, "s" otherwise — and scales the
displayed value by the matching power of 1000 (×10³ for ps, ÷10³ for us,
÷10⁶ for ms, ÷10⁹ for s). -/
theorem C8_time_unit_selection (ns : ℚ) (h0 : 0 ≤ ns) :
    (ns < 1 → time ns = (ns * 1000, "ps")) ∧
    (1 ≤ ns → ns < 1000 → time ns = (ns, "ns")) ∧
    (1000 ≤ ns → ns < 1000000 → time ns = (ns / 1000, "us")) ∧
    (1000000 ≤ ns → ns < 1000000000 → time ns = (ns / 1000000, "ms")) ∧
    (1000000000 ≤ ns → time ns = (ns / 1000000000, "s")) := by
  have e3 : (10 : ℚ) ^ 3 = 1000 := by norm_num
  have e6 : (10 : ℚ) ^ 6 = 1000000 := by norm_num
  have e9 : (10 : ℚ) ^ 9 = 1000000000 := by norm_num
  refine ⟨?_, ?_, ?_, ?_, ?_⟩
  · intro h
    simp only [time, e3, e6, e9, if_pos h]
  · intro h1 h2
    simp only [time, e3, e6, e9, if_neg (by linarith : ¬ ns < 1), if_pos h2]
  · intro h1 h2
    simp only [time, e3, e6, e9, if_neg (by linarith : ¬ ns < 1),
      if_neg (by linarith : ¬ ns < 1000), if_pos h2]
  · intro h1 h2
    simp only [time, e3, e6, e9, if_neg (by linarith : ¬ ns < 1),
      if_neg (by linarith : ¬ ns < 1000), if_neg (by linarith : ¬ ns < 1000000),
      if_pos h2]
  · intro h1
    simp only [time, e3, e6, e9, if_neg (by linarith : ¬ ns < 1),
      if_neg (by linarith : ¬ ns < 1000), if_neg (by linarith : ¬ ns < 1000000),
      if_neg (by linarith : ¬ ns < 1000000000)]

/-- Witness for C8 at ns = 2500 (the "us" range). -/
theorem C8_witness : time 2500 = (2500 / 1000, "us") :=
  (C8_time_unit_selection 2500 (by norm_num)).2.2.1 (by norm_num) (by norm_num)

/-- C9: `iter_count` returns the exact decimal representation followed by
" iterations" below 10 000, and iterations/1000 rounded to zero decimal places
followed by "k iterations" for 10 000 ≤ iterations < 1 000 000. -/
theorem C9_iter_count_branches (it : ℕ) :
    (it < 10000 → iter_count it = toString it ++ " iterations") ∧
    (10000 ≤ it → it < 1000000 →
      iter_count it = toString (roundHalfEven ((it : ℚ) / 1000)) ++ "k iterations") := by
  constructor
  · intro h
    simp only [iter_count, if_pos h]
  · intro h1 h2
    simp only [iter_count, if_neg (by omega : ¬ it < 10000), if_pos h2, fmt0]

/-- Witness for C9: a value below 10 000 renders exactly, and a value just below
1 000 000 renders as "1000k iterations", not "1M iterations". -/
theorem C9_witness :
    iter_count 123 = "123 iterations" ∧ iter_count 999999 = "1000k iterations" := by
  constructor
  · rw [(C9_iter_count_branches 123).1 (by norm_num)]
    decide
  · rw [(C9_iter_count_branches 999999).2 (by norm_num) (by norm_num)]
    have hq : ((999999 : ℕ) : ℚ) / 1000 = (999999 : ℚ) / 1000 := by norm_num
    have hfl : ⌊(999999 : ℚ) / 1000⌋ = 999 := by
      rw [Int.floor_eq_iff]
      constructor <;> norm_num
    have hr : roundHalfEven ((999999 : ℚ) / 1000) = 1000 := by
      simp only [roundHalfEven, hfl]
      rw [if_neg (by norm_num), if_pos (by norm_num)]
      norm_num
    rw [hq, hr]
    decide

/-- C5: within one function-id group of `line_comparison`, the (x, y) tuples are
sorted in ascending order of x before being plotted; in the exact rational model
every x admits a total comparison (no NaN), so the comparator used by `sort_by`
is the total order on first components and the sorted output is pairwise
ascending (and a permutation of the computed tuples). -/
theorem C5_line_comparison_sorted (group : List (ℚ × List ℚ)) :
    (lineSortedTuples group).Pairwise (fun p q => p.1 ≤ q.1) ∧
    (lineSortedTuples group).Perm (lineTuples group) := by
  constructor
  · have h := @List.sorted_mergeSort (ℚ × ℚ) (fun p q => decide (p.1 ≤ q.1))
      (fun a b c hab hbc => by
        simp only [decide_eq_true_eq] at hab hbc ⊢
        exact le_trans hab hbc)
      (fun a b => by
        simp only [Bool.or_eq_true, decide_eq_true_eq]
        exact le_total a.1 b.1)
      (lineTuples group)
    exact h.imp fun hab => of_decide_eq_true hab
  · exact List.mergeSort_perm _ _

/-- C4: in `violin`, each computed KDE density curve's y-values are divided
elementwise by that curve's own maximum, so whenever the maximum is positive
(finiteness being automatic in the exact model) the normalized curve's maximum
equals 1. -/
theorem C4_violin_normalization (sweep : List ℚ → List ℚ × List ℚ) (sample : List ℚ)
    (hne : (sweep sample).2 ≠ []) (hpos : 0 < Sample.max (sweep sample).2) :
    (violinCurve sweep sample).2
        = (sweep sample).2.map (fun y => y / Sample.max (sweep sample).2) ∧
    Sample.max (violinCurve sweep sample).2 = 1 := by
  constructor
  · rfl
  · show Sample.max ((sweep sample).2.map fun y => y / Sample.max (sweep sample).2) = 1
    rw [Sample.max_map_div _ _ hpos hne, div_self (ne_of_gt hpos)]

/-- Witness for C4 with the identity sweep and the sample [1, 2]. -/
theorem C4_witness :
    Sample.max (violinCurve (fun s => (s, s)) [1, 2]).2 = 1 :=
  (C4_violin_normalization (fun s => (s, s)) [1, 2] (by decide) (by decide)).2

/-- C7: `line_comparison` and `violin` never mutate the caller-supplied sample
buffers: threading the buffers through the computation as explicit state
returns them unchanged, and `violin`'s normalization produces exactly the
curves obtained by dividing the freshly produced `kde::sweep` output, never
touching the input samples. -/
theorem C7_no_mutation (sweep : List ℚ → List ℚ × List ℚ)
    (group : List (ℚ × List ℚ)) (curves : List (List ℚ)) :
    (line_comparison group).2 = group ∧
    (violinRun sweep curves).1 = curves ∧
    (violinRun sweep curves).2 = violinKdes sweep curves := by
  refine ⟨?_, ?_, ?_⟩
  · simp only [line_comparison]
    rw [line_comparison_foldl group [] group]
  · simp only [violinRun]
    rw [violinRun_foldl sweep curves.reverse curves []]
  · simp only [violinRun, violinKdes]
    rw [violinRun_foldl sweep curves.reverse curves []]
    simp

/-- C10: `violin` panics (unwrap of None on the filtered x iterator) when no
x-coordinate of any computed KDE curve is strictly positive — in particular on
empty input — and under the precondition that at least one KDE x-coordinate is
positive the panic branch is unreachable. -/
theorem C10_violin_panic (sweep : List ℚ → List ℚ × List ℚ)
    (all_curves : List (List ℚ)) :
    ((∀ x ∈ (violinKdes sweep all_curves).flatMap (fun c => c.1), x ≤ 0) →
      violinMinMax (violinKdes sweep all_curves) = none) ∧
    violinMinMax (violinKdes sweep []) = none ∧
    ((∃ x ∈ (violinKdes sweep all_curves).flatMap (fun c => c.1), 0 < x) →
      (violinMinMax (violinKdes sweep all_curves)).isSome = true) := by
  refine ⟨?_, ?_, ?_⟩
  · intro h
    rw [violinMinMax_none_iff]
    rw [List.filter_eq_nil_iff]
    intro a ha
    simpa using h a ha
  · rfl
  · rintro ⟨x, hx, hxpos⟩
    cases hfil : (violinKdes sweep all_curves).flatMap (fun c => c.1)
        |>.filter (fun x => decide (0 < x)) with
    | nil =>
      exfalso
      have := List.filter_eq_nil_iff.mp hfil x hx
      simp [hxpos] at this
    | cons a as =>
      unfold violinMinMax
      simp [hfil]

/-- Witness for C10 with the identity sweep: a curve with only non-positive
x-coordinates makes the x-range computation panic, and one positive
x-coordinate makes it succeed. -/
theorem C10_witness :
    violinMinMax (violinKdes (fun s => (s, s)) [[-1]]) = none ∧
    (violinMinMax (violinKdes (fun s => (s, s)) [[1]])).isSome = true :=
  ⟨(C10_violin_panic (fun s => (s, s)) [[-1]]).1 (by decide),
   (C10_violin_panic (fun s => (s, s)) [[1]]).2.2 (by decide)⟩

/-- C1 as stated is false: at precision f64 and input x = 0,
`Gaussian::evaluate` differs from the reference definition with the constant
2π taken at f64 precision, because the code builds the constant from
`std::f32::consts::PI`. -/
theorem C1_counterexample : Gaussian.evaluate 0 ≠ gaussianRef twoPi64 0 := by
  have h32q : (0 : ℚ) < twoPi32 := by norm_num [twoPi32, pi32]
  have h64q : (0 : ℚ) < twoPi64 := by norm_num [twoPi64, pi64]
  have hneq : twoPi32 ≠ twoPi64 := by norm_num [twoPi32, twoPi64, pi32, pi64]
  have h32 : (0 : ℝ) ≤ ((twoPi32 : ℚ) : ℝ) := by exact_mod_cast h32q.le
  have h64 : (0 : ℝ) ≤ ((twoPi64 : ℚ) : ℝ) := by exact_mod_cast h64q.le
  have e1 : Gaussian.evaluate 0 = (Real.sqrt ((twoPi32 : ℚ) : ℝ))⁻¹ := by
    norm_num [Gaussian.evaluate, Real.exp_zero]
  have e2 : gaussianRef twoPi64 0 = (Real.sqrt ((twoPi64 : ℚ) : ℝ))⁻¹ := by
    norm_num [gaussianRef, Real.exp_zero, one_div]
  intro h
  rw [e1, e2] at h
  have hs : Real.sqrt ((twoPi32 : ℚ) : ℝ) = Real.sqrt ((twoPi64 : ℚ) : ℝ) :=
    inv_inj.mp h
  have hc : ((twoPi32 : ℚ) : ℝ) = ((twoPi64 : ℚ) : ℝ) := (Real.sqrt_inj h32 h64).mp hs
  exact hneq (by exact_mod_cast hc)

/-- C1 amended: for every x, `Gaussian::evaluate` equals the reference
definition exp(-x²/2) / sqrt(2π) with the constant 2π taken at f32 precision
and cast to the evaluation precision — for every instantiation, including f64. -/
theorem C1_amended_evaluate_eq_ref (x : ℝ) :
    Gaussian.evaluate x = gaussianRef twoPi32 x := by
  unfold Gaussian.evaluate gaussianRef
  have hx : x ^ 2 * (-(1 / 2) : ℝ) = -(x ^ 2) / 2 := by ring
  rw [hx, div_eq_mul_inv, div_eq_mul_inv]

/-- C2: the Gaussian kernel is symmetric about zero:
`evaluate(-x) == evaluate(x)`.  In IEEE arithmetic `(-x).powi(2)` and
`x.powi(2)` are the same value exactly, so the equality is exact, not merely
within tolerance. -/
theorem C2_evaluate_symmetric (x : ℝ) :
    Gaussian.evaluate (-x) = Gaussian.evaluate x := by
  unfold Gaussian.evaluate
  rw [neg_sq]

/-- C6: `Gaussian::evaluate` is a stateless pure function: the result of a
call depends only on the argument x — two evaluations with the same x under
any two ambient states (two runs) produce identical results — and the call
leaves the ambient state unchanged. -/
theorem C6_evaluate_pure (M : Type) (m m' : M) (x : ℝ) :
    (Gaussian.evaluateCall M m x).1 = (Gaussian.evaluateCall M m' x).1 ∧
    (Gaussian.evaluateCall M m x).2 = m :=
  ⟨rfl, rfl⟩

/-- C3: for every pair of finite bounds a ≤ b, the trapezoidal accumulation of
the shipped test over [a, b] lies within [0, 1] up to tolerance (here 1/100:
the exact-arithmetic sum can exceed 1 by at most two `DX`-panels of slack),
and over the wide symmetric interval [-10, 10] (20000 panels) it approaches 1,
landing within 1/100 of it. -/
theorem C3_trapezoid_integral (a b : ℝ) (hab : a ≤ b) :
    (0 ≤ integralAcc a b ∧ integralAcc a b ≤ 1 + 1 / 100) ∧
    (1 - 1 / 100 ≤ integralAcc (-10) 10 ∧ integralAcc (-10) 10 ≤ 1 + 1 / 100) :=
  ⟨⟨trapSum_nonneg a (numSteps a b), integralAcc_le_one_plus a b⟩,
   integralAcc_wide_ge, integralAcc_le_one_plus (-10) 10⟩

/-- Witness for C3 at the bounds a = -10 ≤ b = 10. -/
theorem C3_witness :
    (0 ≤ integralAcc (-10) 10 ∧ integralAcc (-10) 10 ≤ 1 + 1 / 100) ∧
    (1 - 1 / 100 ≤ integralAcc (-10) 10 ∧ integralAcc (-10) 10 ≤ 1 + 1 / 100) :=
  C3_trapezoid_integral (-10) 10 (by norm_num)

end Criterion
